import Mathlib

/-!
Verification of the confidential-amount encryption core of the
xelis-blockchain repository: the twisted-ElGamal ciphertext algebra
(`src/xelis_common/src/crypto/elgamal/ciphertext.rs`), its compressed
wire representation, and the miner-work byte cache
(`src/xelis_common/src/block/miner.rs`).

The elliptic-curve group primitive (curve25519-dalek Ristretto) is an
external collaborator of the repository; following the spec it is
modelled as the prime-order cyclic group `ZMod groupOrder` with the
canonical 32-byte encoding of a group element given by the
little-endian bytes of its canonical representative.
-/

/-- Order of the Ristretto prime-order group used by curve25519-dalek:
2^252 + 27742317777372353535851937790883648493. -/
def groupOrder : Nat := 2 ^ 252 + 27742317777372353535851937790883648493

instance : NeZero groupOrder := ⟨by decide⟩

/-- Modelled from the spec: the external group primitive `RistrettoPoint`
(prime-order elliptic-curve group). Any group of prime order is cyclic, so it
is modelled as the additive group `ZMod groupOrder`. -/
abbrev RistrettoPoint := ZMod groupOrder

/-- Modelled from the spec: the external scalar field (field element modulo
the group order). -/
abbrev Scalar := ZMod groupOrder

/-- Modelled from the spec: the fixed public generator point `G` used for
amounts, an arbitrary fixed generator of the cyclic group model. -/
def pointG : RistrettoPoint := 1

/-- Modelled from the spec: scalar multiplication `s * P` provided by the
group primitive. -/
def smul (s : Scalar) (p : RistrettoPoint) : RistrettoPoint := s * p

/-- Pedersen commitment: wraps exactly one group element (field named after
the `as_point` accessor of the source). -/
structure PedersenCommitment where
  point : RistrettoPoint
deriving DecidableEq

/-- Decrypt handle: wraps exactly one group element. -/
structure DecryptHandle where
  point : RistrettoPoint
deriving DecidableEq

/-- Modelled from the spec: `PedersenCommitment::from_point` (pedersen.rs is
not in the excerpt; §4.1 of the spec: construct directly from a raw group
element). -/
def PedersenCommitment.from_point (p : RistrettoPoint) : PedersenCommitment :=
  ⟨p⟩

/-- Modelled from the spec: `DecryptHandle::from_point` (§4.2). -/
def DecryptHandle.from_point (p : RistrettoPoint) : DecryptHandle :=
  ⟨p⟩

/-- Modelled from the spec: commitment + commitment, pointwise group
addition (§4.1). -/
def PedersenCommitment.add (a b : PedersenCommitment) : PedersenCommitment :=
  ⟨a.point + b.point⟩

/-- Modelled from the spec: commitment - commitment, pointwise group
subtraction (§4.1). -/
def PedersenCommitment.sub (a b : PedersenCommitment) : PedersenCommitment :=
  ⟨a.point - b.point⟩

/-- Modelled from the spec: commitment + scalar adds `scalar·G` to the
element (§4.1). -/
def PedersenCommitment.addScalar (a : PedersenCommitment) (s : Scalar) :
    PedersenCommitment :=
  ⟨a.point + smul s pointG⟩

/-- Modelled from the spec: commitment - scalar subtracts `scalar·G` from
the element (§4.1). -/
def PedersenCommitment.subScalar (a : PedersenCommitment) (s : Scalar) :
    PedersenCommitment :=
  ⟨a.point - smul s pointG⟩

/-- Modelled from the spec: handle + handle, pointwise group addition
(§4.2: identical shape to the commitment algebra, no scalar operation). -/
def DecryptHandle.add (a b : DecryptHandle) : DecryptHandle :=
  ⟨a.point + b.point⟩

/-- Modelled from the spec: handle - handle, pointwise group subtraction
(§4.2). -/
def DecryptHandle.sub (a b : DecryptHandle) : DecryptHandle :=
  ⟨a.point - b.point⟩

/-- Ciphertext from ciphertext.rs: the ordered pair of one Pedersen
commitment and one decrypt handle. -/
structure Ciphertext where
  commitment : PedersenCommitment
  handle : DecryptHandle
deriving DecidableEq

/-- Translation of `Ciphertext::new` (ciphertext.rs, lines 13-15): construct
from parts, no validation. -/
def Ciphertext.new (commitment : PedersenCommitment) (handle : DecryptHandle) :
    Ciphertext :=
  { commitment := commitment, handle := handle }

/-- Translation of `Ciphertext::zero` (ciphertext.rs, lines 18-23): both
halves are the group identity point. -/
def Ciphertext.zero : Ciphertext :=
  { commitment := PedersenCommitment.from_point 0,
    handle := DecryptHandle.from_point 0 }

/-- Translation of `impl Add for Ciphertext` (ciphertext.rs, lines 43-52):
componentwise addition. -/
def Ciphertext.add (x rhs : Ciphertext) : Ciphertext :=
  { commitment := x.commitment.add rhs.commitment,
    handle := x.handle.add rhs.handle }

/-- Translation of `impl Add<&Ciphertext> for Ciphertext` (ciphertext.rs,
lines 54-63); the borrow disappears in the embedding. -/
def Ciphertext.addRef (x rhs : Ciphertext) : Ciphertext :=
  { commitment := x.commitment.add rhs.commitment,
    handle := x.handle.add rhs.handle }

/-- Translation of `impl Add<Scalar> for Ciphertext` (ciphertext.rs, lines
65-73): only the commitment changes, the handle field is copied through. -/
def Ciphertext.addScalar (x : Ciphertext) (rhs : Scalar) : Ciphertext :=
  { commitment := x.commitment.addScalar rhs,
    handle := x.handle }

/-- Translation of `impl Add<&Scalar> for Ciphertext` (ciphertext.rs, lines
75-83). -/
def Ciphertext.addScalarRef (x : Ciphertext) (rhs : Scalar) : Ciphertext :=
  { commitment := x.commitment.addScalar rhs,
    handle := x.handle }

/-- Translation of `impl Sub for Ciphertext` (ciphertext.rs, lines 115-124):
componentwise subtraction. -/
def Ciphertext.sub (x rhs : Ciphertext) : Ciphertext :=
  { commitment := x.commitment.sub rhs.commitment,
    handle := x.handle.sub rhs.handle }

/-- Translation of `impl Sub<&Ciphertext> for Ciphertext` (ciphertext.rs,
lines 126-135). -/
def Ciphertext.subRef (x rhs : Ciphertext) : Ciphertext :=
  { commitment := x.commitment.sub rhs.commitment,
    handle := x.handle.sub rhs.handle }

/-- Translation of `impl Sub<Scalar> for Ciphertext` (ciphertext.rs, lines
137-145): only the commitment changes, the handle field is copied through. -/
def Ciphertext.subScalar (x : Ciphertext) (rhs : Scalar) : Ciphertext :=
  { commitment := x.commitment.subScalar rhs,
    handle := x.handle }

/-- Translation of `impl Sub<&Scalar> for Ciphertext` (ciphertext.rs, lines
147-155). -/
def Ciphertext.subScalarRef (x : Ciphertext) (rhs : Scalar) : Ciphertext :=
  { commitment := x.commitment.subScalar rhs,
    handle := x.handle }

/-- Translation of `impl AddAssign for Ciphertext` (ciphertext.rs, lines
87-92): the mutated receiver, returned as the new value; the commitment and
handle in-place additions (pedersen.rs) are modelled from the spec as the
pure pointwise additions. -/
def Ciphertext.addAssign (x rhs : Ciphertext) : Ciphertext :=
  { x with
    commitment := x.commitment.add rhs.commitment,
    handle := x.handle.add rhs.handle }

/-- Translation of `impl AddAssign<&Ciphertext> for Ciphertext`
(ciphertext.rs, lines 94-99). -/
def Ciphertext.addAssignRef (x rhs : Ciphertext) : Ciphertext :=
  { x with
    commitment := x.commitment.add rhs.commitment,
    handle := x.handle.add rhs.handle }

/-- Translation of `impl AddAssign<Scalar> for Ciphertext` (ciphertext.rs,
lines 101-105): only the commitment is assigned, the handle is untouched. -/
def Ciphertext.addAssignScalar (x : Ciphertext) (rhs : Scalar) : Ciphertext :=
  { x with commitment := x.commitment.addScalar rhs }

/-- Translation of `impl AddAssign<&Scalar> for Ciphertext` (ciphertext.rs,
lines 107-111). -/
def Ciphertext.addAssignScalarRef (x : Ciphertext) (rhs : Scalar) :
    Ciphertext :=
  { x with commitment := x.commitment.addScalar rhs }

/-- Translation of `impl SubAssign for Ciphertext` (ciphertext.rs, lines
159-164). -/
def Ciphertext.subAssign (x rhs : Ciphertext) : Ciphertext :=
  { x with
    commitment := x.commitment.sub rhs.commitment,
    handle := x.handle.sub rhs.handle }

/-- Translation of `impl SubAssign<&Ciphertext> for Ciphertext`
(ciphertext.rs, lines 166-171). -/
def Ciphertext.subAssignRef (x rhs : Ciphertext) : Ciphertext :=
  { x with
    commitment := x.commitment.sub rhs.commitment,
    handle := x.handle.sub rhs.handle }

/-- Translation of `impl SubAssign<Scalar> for Ciphertext` (ciphertext.rs,
lines 173-177): only the commitment is assigned, the handle is untouched. -/
def Ciphertext.subAssignScalar (x : Ciphertext) (rhs : Scalar) : Ciphertext :=
  { x with commitment := x.commitment.subScalar rhs }

/-- Translation of `impl SubAssign<&Scalar> for Ciphertext` (ciphertext.rs,
lines 179-183). -/
def Ciphertext.subAssignScalarRef (x : Ciphertext) (rhs : Scalar) :
    Ciphertext :=
  { x with commitment := x.commitment.subScalar rhs }

/-! Compression layer. The canonical 32-byte point encoding belongs to the
external group primitive; it is modelled as the little-endian byte
representation of the canonical representative of a `ZMod groupOrder`
element, with decoding rejecting every byte string that is not such a
canonical encoding. The wrapper types and the ciphertext-level composition
come from ciphertext.rs and the spec. -/

/-- Little-endian byte encoding of a natural number on a fixed number of
bytes. -/
def bytesOfNatLE : Nat → Nat → List Nat
  | 0, _ => []
  | k + 1, n => n % 256 :: bytesOfNatLE k (n / 256)

/-- Value of a little-endian byte string. -/
def natOfBytesLE : List Nat → Nat
  | [] => 0
  | b :: bs => b + 256 * natOfBytesLE bs

/-- Modelled from the spec: canonical compressed 32-byte encoding of a group
element, provided by the external group primitive. -/
def pointCompress (p : RistrettoPoint) : List Nat :=
  bytesOfNatLE 32 p.val

/-- Modelled from the spec: decoding of a compressed point; it may fail, and
accepts exactly the canonical encodings produced by `pointCompress`. -/
def pointDecompress (b : List Nat) : Option RistrettoPoint :=
  if b.length = 32 ∧ (∀ x ∈ b, x < 256) ∧ natOfBytesLE b < groupOrder then
    some ((natOfBytesLE b : Nat) : RistrettoPoint)
  else
    none

/-- CompressedCommitment: wraps one compressed point (32 bytes). -/
structure CompressedCommitment where
  bytes : List Nat
deriving DecidableEq

/-- CompressedCiphertext: wraps the compressed commitment and the compressed
handle point, in that order (ciphertext.rs, lines 33-38). -/
structure CompressedCiphertext where
  commitment : CompressedCommitment
  handle : List Nat
deriving DecidableEq

/-- Modelled from the spec: `Commitment::compress`, the canonical
compressed-point encoding of the wrapped element (§4.1), as used by
`Ciphertext::compress` via `as_point().compress()`. -/
def PedersenCommitment.compress (c : PedersenCommitment) :
    CompressedCommitment :=
  ⟨pointCompress c.point⟩

/-- Translation of `Ciphertext::compress` (ciphertext.rs, lines 33-38):
compress the commitment point and the handle point. -/
def Ciphertext.compress (x : Ciphertext) : CompressedCiphertext :=
  { commitment := x.commitment.compress,
    handle := pointCompress x.handle.point }

/-- Decode error surfaced at the decompression boundary. -/
inductive DecodeError where
  | invalidPoint
deriving DecidableEq

/-- Modelled from the spec: `CompressedCommitment::decompress` fails with a
decode error if the bytes do not correspond to a valid point (§4.4). -/
def CompressedCommitment.decompress (c : CompressedCommitment) :
    Except DecodeError PedersenCommitment :=
  match pointDecompress c.bytes with
  | some p => Except.ok (PedersenCommitment.from_point p)
  | none => Except.error DecodeError.invalidPoint

/-- Modelled from the spec: the ciphertext equivalent of decompression,
decoding the commitment half and the handle half and failing with a decode
error if either half is invalid (§4.4). -/
def CompressedCiphertext.decompress (c : CompressedCiphertext) :
    Except DecodeError Ciphertext :=
  match c.commitment.decompress with
  | Except.error e => Except.error e
  | Except.ok commitment =>
    match pointDecompress c.handle with
    | some p => Except.ok (Ciphertext.new commitment (DecryptHandle.from_point p))
    | none => Except.error DecodeError.invalidPoint

/-- Modelled from the spec: byte layout of a compressed ciphertext,
commitment (32 bytes) followed by handle (32 bytes) (§6). -/
def CompressedCiphertext.toBytes (c : CompressedCiphertext) : List Nat :=
  c.commitment.bytes ++ c.handle

/-- Modelled from the spec: reading a compressed ciphertext back from a
64-byte wire buffer, splitting it into the commitment half and the handle
half (§6). -/
def compressedCiphertextOfBytes (b : List Nat) : CompressedCiphertext :=
  { commitment := ⟨b.take 32⟩, handle := b.drop 32 }


/-! Miner work (src/xelis_common/src/block/miner.rs). The serializer and the
hash-input buffer live outside the excerpt; they are modelled from the spec
(§6: all multi-byte integers big-endian; hash and compressed public key are
32 bytes each) and from the offset comments and the `debug_assert` in
`Serializer::write for MinerWork` (32 + 8 + 8 + 32 + 32 = 112 bytes). -/

/-- Serialized size of a MinerWork, from the offset comments and the
`debug_assert` in miner.rs (BLOCK_WORK_SIZE). -/
def BLOCK_WORK_SIZE : Nat := 112

/-- Size of the extra nonce buffer (EXTRA_NONCE_SIZE), 32 bytes from the
offset comments in miner.rs. -/
def EXTRA_NONCE_SIZE : Nat := 32

/-- Size of a compressed public key (RISTRETTO_COMPRESSED_SIZE), 32 bytes. -/
def RISTRETTO_COMPRESSED_SIZE : Nat := 32

/-- Modelled from the spec: big-endian 8-byte encoding of a u64 value
(`u64::to_be_bytes` and the serializer `write_u64`; §6 states all multi-byte
integers are big-endian). -/
def u64BE (n : Nat) : List Nat :=
  (bytesOfNatLE 8 (n % 2 ^ 64)).reverse

/-- MinerWork from miner.rs: header work hash, timestamp, nonce, optional
miner public key, extra nonce, and the optional cached hash-input buffer.
Byte strings are lists of bytes; the miner key is kept in its serialized
32-byte form. -/
structure MinerWork where
  header_work_hash : List Nat
  timestamp : Nat
  nonce : Nat
  miner : Option (List Nat)
  extra_nonce : List Nat
  cache : Option (List Nat)
deriving DecidableEq

/-- Bytes written for the miner field by `Serializer::write` (miner.rs,
lines 143-148): the key bytes, or 32 zero bytes when there is no miner. -/
def MinerWork.minerBytes (w : MinerWork) : List Nat :=
  w.miner.getD (List.replicate RISTRETTO_COMPRESSED_SIZE 0)

/-- Translation of `Serializer::write for MinerWork` (miner.rs, lines
136-151): hash (32) ++ timestamp u64 BE (8) ++ nonce u64 BE (8) ++
extra nonce (32) ++ miner key (32). -/
def MinerWork.toBytes (w : MinerWork) : List Nat :=
  w.header_work_hash ++ u64BE w.timestamp ++ u64BE w.nonce ++
    w.extra_nonce ++ w.minerBytes

/-- Overwrite of the byte range starting at `off` with `r`, the model of
`slice[off..off+r.length].copy_from_slice(&r)`. -/
def setSlice (c : List Nat) (off : Nat) (r : List Nat) : List Nat :=
  c.take off ++ r ++ c.drop (off + r.length)

/-- Cache-populating effect of `MinerWork::get_pow_hash` (miner.rs, lines
80-89): when the cache is empty, fill a zeroed default `Input` buffer
(modelled from the spec at its relevant BLOCK_WORK_SIZE prefix) with the
serialized bytes; hashing itself works on a clone and leaves the cache as
populated. -/
def MinerWork.get_pow_hash_cache (w : MinerWork) : MinerWork :=
  match w.cache with
  | none =>
    { w with cache := some (setSlice (List.replicate BLOCK_WORK_SIZE 0) 0 w.toBytes) }
  | some _ => w

/-- Translation of `MinerWork::set_timestamp` (miner.rs, lines 96-103): set
the field and patch cache bytes 32..40 with the big-endian timestamp. -/
def MinerWork.set_timestamp (w : MinerWork) (t : Nat) : MinerWork :=
  { w with
    timestamp := t,
    cache := w.cache.map fun c => setSlice c 32 (u64BE t) }

/-- Translation of `MinerWork::increase_nonce` (miner.rs, lines 106-112):
increment the nonce (u64 wrapping) and patch cache bytes 40..48 with the
big-endian nonce. -/
def MinerWork.increase_nonce (w : MinerWork) : MinerWork :=
  { w with
    nonce := (w.nonce + 1) % 2 ^ 64,
    cache := w.cache.map fun c => setSlice c 40 (u64BE ((w.nonce + 1) % 2 ^ 64)) }

/-- Mining mutation considered by the cache invariant: the two
high-frequency in-place patch operations. -/
inductive MinerOp where
  | setTimestampOp (t : Nat)
  | increaseNonceOp
deriving DecidableEq

/-- Apply one mining mutation. -/
def MinerWork.applyOp (w : MinerWork) : MinerOp → MinerWork
  | MinerOp.setTimestampOp t => w.set_timestamp t
  | MinerOp.increaseNonceOp => w.increase_nonce

/-- Apply a sequence of mining mutations, first one first. -/
def MinerWork.applyOps (w : MinerWork) (ops : List MinerOp) : MinerWork :=
  ops.foldl MinerWork.applyOp w

/-- Well-formed sizes of the byte fields of a MinerWork: 32-byte hash,
32-byte extra nonce, 32-byte serialized miner field. -/
def MinerWork.WF (w : MinerWork) : Prop :=
  w.header_work_hash.length = 32 ∧ w.extra_nonce.length = 32 ∧
    w.minerBytes.length = 32

instance (w : MinerWork) : Decidable w.WF := by
  unfold MinerWork.WF
  infer_instance

/-! Helper lemmas about the byte encodings. -/

theorem length_bytesOfNatLE (k n : Nat) : (bytesOfNatLE k n).length = k := by
  induction k generalizing n with
  | zero => rfl
  | succ k ih => simp [bytesOfNatLE, ih]

theorem mem_bytesOfNatLE_lt (k n : Nat) : ∀ x ∈ bytesOfNatLE k n, x < 256 := by
  induction k generalizing n with
  | zero => simp [bytesOfNatLE]
  | succ k ih =>
    intro x hx
    simp only [bytesOfNatLE, List.mem_cons] at hx
    rcases hx with h | h
    · exact h ▸ Nat.mod_lt _ (by omega)
    · exact ih _ x h

theorem natOfBytesLE_bytesOfNatLE (k n : Nat) (h : n < 256 ^ k) :
    natOfBytesLE (bytesOfNatLE k n) = n := by
  induction k generalizing n with
  | zero =>
    simp [bytesOfNatLE, natOfBytesLE]
    omega
  | succ k ih =>
    have hdiv : n / 256 < 256 ^ k := by
      rw [Nat.div_lt_iff_lt_mul (by omega)]
      calc n < 256 ^ (k + 1) := h
        _ = 256 ^ k * 256 := by ring
    simp [bytesOfNatLE, natOfBytesLE, ih _ hdiv]
    omega

theorem groupOrder_lt_encBound : groupOrder < 256 ^ 32 := by decide

theorem pointDecompress_pointCompress (p : RistrettoPoint) :
    pointDecompress (pointCompress p) = some p := by
  have hval : p.val < groupOrder := ZMod.val_lt p
  have hbound : p.val < 256 ^ 32 := lt_trans hval groupOrder_lt_encBound
  have hrt : natOfBytesLE (bytesOfNatLE 32 p.val) = p.val :=
    natOfBytesLE_bytesOfNatLE 32 p.val hbound
  unfold pointDecompress pointCompress
  rw [if_pos]
  · rw [hrt, ZMod.natCast_rightInverse p]
  · exact ⟨length_bytesOfNatLE 32 p.val, mem_bytesOfNatLE_lt 32 p.val, by rw [hrt]; exact hval⟩

/-- C1: adding or subtracting a scalar, in the pure and in the in-place
forms (owned and borrowed), leaves the handle component of the ciphertext
exactly unchanged; only the commitment changes, to `C + s·G` for addition
and `C - s·G` for subtraction. -/
theorem scalar_ops_leave_handle_unchanged (x : Ciphertext) (s : Scalar) :
    (x.addScalar s).handle = x.handle ∧
    (x.subScalar s).handle = x.handle ∧
    (x.addScalarRef s).handle = x.handle ∧
    (x.subScalarRef s).handle = x.handle ∧
    (x.addAssignScalar s).handle = x.handle ∧
    (x.subAssignScalar s).handle = x.handle ∧
    (x.addAssignScalarRef s).handle = x.handle ∧
    (x.subAssignScalarRef s).handle = x.handle ∧
    (x.addScalar s).commitment.point = x.commitment.point + smul s pointG ∧
    (x.subScalar s).commitment.point = x.commitment.point - smul s pointG :=
  ⟨rfl, rfl, rfl, rfl, rfl, rfl, rfl, rfl, rfl, rfl⟩

/-- C2: `Ciphertext.zero` has both halves equal to the group identity, and
for every ciphertext `X`, `X + zero = X` and `X - X = zero`. -/
theorem ciphertext_zero_identity_laws (x : Ciphertext) :
    Ciphertext.zero.commitment.point = 0 ∧ Ciphertext.zero.handle.point = 0 ∧
    x.add Ciphertext.zero = x ∧ x.sub x = Ciphertext.zero := by
  obtain ⟨⟨c⟩, ⟨d⟩⟩ := x
  refine ⟨rfl, rfl, ?_, ?_⟩ <;>
    simp [Ciphertext.add, Ciphertext.sub, Ciphertext.zero,
      PedersenCommitment.add, PedersenCommitment.sub, DecryptHandle.add,
      DecryptHandle.sub, PedersenCommitment.from_point, DecryptHandle.from_point]

/-- C3: decompression undoes compression on every valid ciphertext and on
every valid commitment. -/
theorem decompress_compress_roundtrip :
    (∀ x : Ciphertext, x.compress.decompress = Except.ok x) ∧
    (∀ c : PedersenCommitment, c.compress.decompress = Except.ok c) := by
  constructor
  · intro x
    obtain ⟨⟨c⟩, ⟨d⟩⟩ := x
    simp [Ciphertext.compress, CompressedCiphertext.decompress,
      CompressedCommitment.decompress, PedersenCommitment.compress,
      pointDecompress_pointCompress, Ciphertext.new,
      PedersenCommitment.from_point, DecryptHandle.from_point]
  · intro c
    obtain ⟨p⟩ := c
    simp [CompressedCommitment.decompress, PedersenCommitment.compress,
      pointDecompress_pointCompress, PedersenCommitment.from_point]

/-- C4: ciphertext subtraction undoes ciphertext addition,
`(X + Y) - Y = X`. -/
theorem ciphertext_add_sub_cancel (x y : Ciphertext) :
    (x.add y).sub y = x := by
  obtain ⟨⟨c1⟩, ⟨d1⟩⟩ := x
  obtain ⟨⟨c2⟩, ⟨d2⟩⟩ := y
  simp [Ciphertext.add, Ciphertext.sub, PedersenCommitment.add,
    PedersenCommitment.sub, DecryptHandle.add, DecryptHandle.sub]

/-- C5: public-scalar adjustments compose additively,
`(X + a) + b = X + (a + b)` with scalar addition taken modulo the group
order, and the handle of `X + a` equals the handle of `X`. -/
theorem ciphertext_scalar_composition (x : Ciphertext) (a b : Scalar) :
    (x.addScalar a).addScalar b = x.addScalar (a + b) ∧
    (x.addScalar a).handle = x.handle := by
  obtain ⟨⟨c⟩, ⟨d⟩⟩ := x
  refine ⟨?_, rfl⟩
  simp [Ciphertext.addScalar, PedersenCommitment.addScalar, smul]
  ring

/-- C6: ciphertext addition is componentwise on the commitment and the
handle, commutative, and associative. -/
theorem ciphertext_add_comm_assoc (x y z : Ciphertext) :
    x.add y = Ciphertext.new (x.commitment.add y.commitment)
      (x.handle.add y.handle) ∧
    x.add y = y.add x ∧
    (x.add y).add z = x.add (y.add z) := by
  obtain ⟨⟨c1⟩, ⟨d1⟩⟩ := x
  obtain ⟨⟨c2⟩, ⟨d2⟩⟩ := y
  obtain ⟨⟨c3⟩, ⟨d3⟩⟩ := z
  refine ⟨rfl, ?_, ?_⟩ <;>
    simp [Ciphertext.add, PedersenCommitment.add, DecryptHandle.add] <;>
    constructor <;> ring

/-- C9: each of the eight assign-operator variants (owned and borrowed,
ciphertext and scalar operand, addition and subtraction) produces exactly
the value of the corresponding pure operation. -/
theorem assign_ops_equal_pure_ops (x y : Ciphertext) (s : Scalar) :
    x.addAssign y = x.add y ∧
    x.addAssignRef y = x.addRef y ∧
    x.addAssignScalar s = x.addScalar s ∧
    x.addAssignScalarRef s = x.addScalarRef s ∧
    x.subAssign y = x.sub y ∧
    x.subAssignRef y = x.subRef y ∧
    x.subAssignScalar s = x.subScalar s ∧
    x.subAssignScalarRef s = x.subScalarRef s :=
  ⟨rfl, rfl, rfl, rfl, rfl, rfl, rfl, rfl⟩

/-- C7: decompressing a 64-byte buffer in which either 32-byte half is not a
valid compressed point yields a decode error; decompression is a total
function returning `Except`, so it can neither panic nor substitute a
default value. -/
theorem decompress_rejects_invalid_halves (b : List Nat)
    (_hlen : b.length = 64)
    (hbad : pointDecompress (b.take 32) = none ∨
      pointDecompress (b.drop 32) = none) :
    (compressedCiphertextOfBytes b).decompress =
      Except.error DecodeError.invalidPoint := by
  unfold compressedCiphertextOfBytes CompressedCiphertext.decompress
    CompressedCommitment.decompress
  rcases hbad with h | h
  · simp only [h]
  · cases hcom : pointDecompress (b.take 32) <;> simp [h]

/-- Witness for C7: the all-255 64-byte buffer has an invalid first half
(its value exceeds the group order), and decompression returns the decode
error on it. -/
theorem decompress_rejects_invalid_halves_witness :
    (List.replicate 64 255).length = 64 ∧
    pointDecompress ((List.replicate 64 255).take 32) = none ∧
    (compressedCiphertextOfBytes (List.replicate 64 255)).decompress =
      Except.error DecodeError.invalidPoint :=
  ⟨by decide, by decide,
    decompress_rejects_invalid_halves (List.replicate 64 255) (by decide)
      (Or.inl (by decide))⟩

/-- C8: compression of a ciphertext always yields exactly 64 bytes, the 32
compressed-commitment bytes followed by the 32 compressed-handle bytes, and
compression of a commitment yields exactly 32 bytes. -/
theorem compress_sizes_and_layout (x : Ciphertext) (c : PedersenCommitment) :
    x.compress.toBytes.length = 64 ∧
    x.compress.toBytes =
      pointCompress x.commitment.point ++ pointCompress x.handle.point ∧
    x.compress.commitment.bytes.length = 32 ∧
    x.compress.handle.length = 32 ∧
    c.compress.bytes.length = 32 := by
  refine ⟨?_, rfl, ?_, ?_, ?_⟩ <;>
    simp [Ciphertext.compress, CompressedCiphertext.toBytes,
      PedersenCommitment.compress, pointCompress, length_bytesOfNatLE]

/-! Helper lemmas for the miner-work cache invariant. -/

theorem setSlice_append (a b c r : List Nat) (hlen : r.length = b.length) :
    setSlice (a ++ (b ++ c)) a.length r = a ++ (r ++ c) := by
  unfold setSlice
  have h1 : (a ++ (b ++ c)).take a.length = a := List.take_left a (b ++ c)
  have h2 : (a ++ (b ++ c)).drop (a.length + r.length) = c := by
    rw [hlen, ← List.append_assoc]
    have hab : a.length + b.length = (a ++ b).length := (List.length_append a b).symm
    rw [hab, List.drop_left]
  rw [h1, h2, List.append_assoc]

theorem u64BE_length (n : Nat) : (u64BE n).length = 8 := by
  simp [u64BE, length_bytesOfNatLE]

theorem MinerWork.toBytes_length (w : MinerWork) (h : w.WF) :
    w.toBytes.length = BLOCK_WORK_SIZE := by
  obtain ⟨h1, h2, h3⟩ := h
  simp [MinerWork.toBytes, u64BE_length, h1, h2, h3, BLOCK_WORK_SIZE]

/-- Invariant claimed for the populated cache: it holds exactly the current
serialization of the miner work. -/
def MinerWork.cacheOk (w : MinerWork) : Prop :=
  w.cache = some w.toBytes

theorem set_timestamp_cache_step (w : MinerWork) (hWF : w.WF) (t : Nat) :
    setSlice w.toBytes 32 (u64BE t) = (w.set_timestamp t).toBytes := by
  obtain ⟨h1, _h2, _h3⟩ := hWF
  have hlen : (u64BE t).length = (u64BE w.timestamp).length := by
    simp [u64BE_length]
  have key := setSlice_append w.header_work_hash (u64BE w.timestamp)
    (u64BE w.nonce ++ (w.extra_nonce ++ w.minerBytes)) (u64BE t) hlen
  rw [h1] at key
  simp only [MinerWork.toBytes, MinerWork.set_timestamp, MinerWork.minerBytes,
    List.append_assoc] at key ⊢
  exact key

theorem increase_nonce_cache_step (w : MinerWork) (hWF : w.WF) :
    setSlice w.toBytes 40 (u64BE ((w.nonce + 1) % 2 ^ 64)) =
      w.increase_nonce.toBytes := by
  obtain ⟨h1, _h2, _h3⟩ := hWF
  have hlen : (u64BE ((w.nonce + 1) % 2 ^ 64)).length = (u64BE w.nonce).length := by
    simp [u64BE_length]
  have key := setSlice_append (w.header_work_hash ++ u64BE w.timestamp)
    (u64BE w.nonce) (w.extra_nonce ++ w.minerBytes)
    (u64BE ((w.nonce + 1) % 2 ^ 64)) hlen
  have hoff : (w.header_work_hash ++ u64BE w.timestamp).length = 40 := by
    simp [h1, u64BE_length]
  rw [hoff] at key
  simp only [MinerWork.toBytes, MinerWork.increase_nonce, MinerWork.minerBytes,
    List.append_assoc] at key ⊢
  exact key

theorem WF_applyOp (w : MinerWork) (op : MinerOp) (h : w.WF) :
    (w.applyOp op).WF := by
  cases op <;>
    simpa [MinerWork.applyOp, MinerWork.set_timestamp, MinerWork.increase_nonce,
      MinerWork.WF, MinerWork.minerBytes] using h

theorem cacheOk_applyOp (w : MinerWork) (op : MinerOp) (hWF : w.WF)
    (h : w.cacheOk) : (w.applyOp op).cacheOk := by
  cases op with
  | setTimestampOp t =>
    simp only [MinerWork.cacheOk] at h ⊢
    simp only [MinerWork.applyOp]
    have hc : (w.set_timestamp t).cache =
        some (setSlice w.toBytes 32 (u64BE t)) := by
      simp only [MinerWork.set_timestamp, h, Option.map_some']
    rw [hc, set_timestamp_cache_step w hWF t]
  | increaseNonceOp =>
    simp only [MinerWork.cacheOk] at h ⊢
    simp only [MinerWork.applyOp]
    have hc : w.increase_nonce.cache =
        some (setSlice w.toBytes 40 (u64BE ((w.nonce + 1) % 2 ^ 64))) := by
      simp only [MinerWork.increase_nonce, h, Option.map_some']
    rw [hc, increase_nonce_cache_step w hWF]

theorem cacheOk_applyOps (ops : List MinerOp) (w : MinerWork) (hWF : w.WF)
    (h : w.cacheOk) : (w.applyOps ops).cacheOk := by
  induction ops generalizing w with
  | nil => exact h
  | cons op ops ih =>
    simp only [MinerWork.applyOps, List.foldl_cons] at *
    exact ih (w.applyOp op) (WF_applyOp w op hWF) (cacheOk_applyOp w op hWF h)

theorem get_pow_hash_cache_establishes (w : MinerWork) (hWF : w.WF)
    (hc : w.cache = none) :
    w.get_pow_hash_cache.cacheOk ∧ w.get_pow_hash_cache.WF := by
  have hlen : w.toBytes.length = BLOCK_WORK_SIZE := w.toBytes_length hWF
  unfold MinerWork.get_pow_hash_cache
  rw [hc]
  constructor
  · unfold MinerWork.cacheOk
    simp only [MinerWork.toBytes, MinerWork.minerBytes, setSlice,
      List.take_zero, List.nil_append, Nat.zero_add, Option.some.injEq]
    rw [show ((w.header_work_hash ++ u64BE w.timestamp ++ u64BE w.nonce ++
      w.extra_nonce ++ Option.getD w.miner (List.replicate RISTRETTO_COMPRESSED_SIZE 0)).length) =
      BLOCK_WORK_SIZE from hlen]
    simp [List.drop_replicate]
  · simpa [MinerWork.WF, MinerWork.minerBytes] using hWF

/-- C10: once `get_pow_hash` has populated the byte cache, any sequence of
`set_timestamp` and `increase_nonce` calls (the two operations that patch
the cache at bytes 32..40 and 40..48 respectively, without touching miner or
extra nonce) keeps the cached buffer equal to the current serialization of
the miner work, i.e. its first BLOCK_WORK_SIZE bytes match
`Serializer::write`. -/
theorem minerWork_cache_tracks_serialization (w : MinerWork)
    (ops : List MinerOp) (hWF : w.WF) (hc : w.cache = none) :
    (w.get_pow_hash_cache.applyOps ops).cache =
      some (w.get_pow_hash_cache.applyOps ops).toBytes := by
  obtain ⟨h1, h2⟩ := get_pow_hash_cache_establishes w hWF hc
  exact cacheOk_applyOps ops w.get_pow_hash_cache h2 h1

/-- Witness for C10: a concrete fresh miner work on which the cache, once
populated, tracks a timestamp update followed by two nonce increments. -/
theorem minerWork_cache_tracks_serialization_witness :
    (⟨List.replicate 32 0, 0, 0, none, List.replicate 32 0, none⟩ :
      MinerWork).WF ∧
    (⟨List.replicate 32 0, 0, 0, none, List.replicate 32 0, none⟩ :
      MinerWork).cache = none ∧
    ((⟨List.replicate 32 0, 0, 0, none, List.replicate 32 0, none⟩ :
        MinerWork).get_pow_hash_cache.applyOps
      [MinerOp.setTimestampOp 12345, MinerOp.increaseNonceOp,
        MinerOp.increaseNonceOp]).cache =
      some ((⟨List.replicate 32 0, 0, 0, none, List.replicate 32 0, none⟩ :
        MinerWork).get_pow_hash_cache.applyOps
          [MinerOp.setTimestampOp 12345, MinerOp.increaseNonceOp,
            MinerOp.increaseNonceOp]).toBytes :=
  ⟨by decide, rfl,
    minerWork_cache_tracks_serialization _
      [MinerOp.setTimestampOp 12345, MinerOp.increaseNonceOp,
        MinerOp.increaseNonceOp] (by decide) rfl⟩
